import Mathlib

/-!
Verification development for the `focus` domain-blocking tool (`src/main.rs`).

Strings are embedded as `List Char`.  Wall-clock times of day are embedded as
natural numbers (the code stores `HH:MM` strings and parses them with
`NaiveTime::parse_from_str` before every comparison; here rules carry the
already-validated parsed values, as the specification's evaluator contract
assumes).  Absolute timestamps (`DateTime<Local>`) are embedded as integers
(seconds), and dates as their formatted `List Char` form, matching the string
comparison performed by the code.
-/

namespace Focus

/-- Rust `char::is_whitespace` restricted to the ASCII whitespace characters
(space, tab, line feed, vertical tab, form feed, carriage return); the code
only ever trims hosts-file text and marker lines, where these are the relevant
characters. -/
def isWS (c : Char) : Bool :=
  c = ' ' || c = '\t' || c = '\n' || c = Char.ofNat 11 || c = Char.ofNat 12 || c = '\r'

/-- Rust `str::trim_start` on a `List Char`. -/
def trimL (s : List Char) : List Char := s.dropWhile isWS

/-- Rust `str::trim_end` on a `List Char`. -/
def trimR (s : List Char) : List Char := (s.reverse.dropWhile isWS).reverse

/-- Rust `str::trim`: remove leading and trailing whitespace. -/
def trim (s : List Char) : List Char := trimL (trimR s)

/-- Split a character list at every line feed.  This models the first stage of
Rust `str::lines` (`split_inclusive('\n')` before terminator stripping): the
result is always non-empty, and a trailing line feed yields a trailing empty
piece. -/
def splitLF : List Char → List (List Char)
  | [] => [[]]
  | c :: cs =>
    if c = '\n' then [] :: splitLF cs
    else (c :: (splitLF cs).headI) :: (splitLF cs).tail

/-- Strip one trailing carriage return, as Rust `str::lines` does on every
piece that was terminated by a line feed. -/
def stripCR (s : List Char) : List Char :=
  if s.getLast? = some '\r' then s.dropLast else s

/-- Second stage of Rust `str::lines`: every piece except the last was
terminated by a line feed and gets one trailing carriage return stripped; the
final piece is dropped when empty (optional final terminator) and is kept
verbatim otherwise. -/
def linesAux : List (List Char) → List (List Char)
  | [] => []
  | [p] => if p = [] then [] else [p]
  | p :: q :: ps => stripCR p :: linesAux (q :: ps)

/-- Rust `str::lines`, as used on the hosts-file content. -/
def rustLines (s : List Char) : List (List Char) := linesAux (splitLF s)

/-- Rust `Vec<String>::join("\n")`, used to produce the final hosts content. -/
def joinLF : List (List Char) → List Char
  | [] => []
  | [p] => p
  | p :: q :: ps => p ++ '\n' :: joinLF (q :: ps)

/-- MARKER_START from the source. -/
def markerStart : List Char := "# BEGIN FOCUS BLOCK".toList

/-- MARKER_END from the source. -/
def markerEnd : List Char := "# END FOCUS BLOCK".toList

/-- Whether a line trims to one of the two managed-region markers. -/
def isMarkerLine (l : List Char) : Bool :=
  decide (trim l = markerStart) || decide (trim l = markerEnd)

/-- Line scan of `update_hosts_file`: walk the lines of the current hosts
content with an `in_block` flag; a line trimming to the start marker turns the
flag on (the line is dropped), one trimming to the end marker turns it off
(also dropped), and any other line is kept exactly when the flag is off. -/
def stripManaged : List (List Char) → Bool → List (List Char)
  | [], _ => []
  | l :: ls, inBlock =>
    if trim l = markerStart then stripManaged ls true
    else if trim l = markerEnd then stripManaged ls false
    else if inBlock then stripManaged ls true
    else l :: stripManaged ls false

/-- Text before the domain on a plain blocking line: `127.0.0.1 `. -/
def ipLocal : List Char := "127.0.0.1 ".toList

/-- Text before the domain on a `www.`-variant blocking line. -/
def ipLocalWww : List Char := "127.0.0.1 www.".toList

/-- Body of the managed block: for each blocked domain, the loop in
`update_hosts_file` pushes `127.0.0.1 <domain>` and `127.0.0.1 www.<domain>`. -/
def blockLines : List (List Char) → List (List Char)
  | [] => []
  | d :: ds => (ipLocal ++ d) :: (ipLocalWww ++ d) :: blockLines ds

/-- Freshly generated managed block: start marker, blocking lines, end marker. -/
def managedBlock (ds : List (List Char)) : List (List Char) :=
  markerStart :: (blockLines ds ++ [markerEnd])

/-- New line list produced by `update_hosts_file`: the foreign lines followed,
when the blocked-domain list is non-empty, by a freshly generated managed
block.  When the list is empty no marker lines are emitted. -/
def reconcileLines (content : List Char) (ds : List (List Char)) : List (List Char) :=
  stripManaged (rustLines content) false ++ (if ds.isEmpty then [] else managedBlock ds)

/-- Hosts-file reconciler of `update_hosts_file`: the new content is the lines
joined with line feeds, and the write is performed exactly when the trimmed new
content differs from the trimmed current content. -/
def reconcile (content : List Char) (ds : List (List Char)) : List Char × Bool :=
  let final := joinLF (reconcileLines content ds)
  (final, decide (trim final ≠ trim content))

/-- Time-window test from `update_hosts_file` and `update_screen_color`:
an ordinary window when start is not after the end, a midnight-wrapping window
otherwise, with both endpoints inclusive. -/
def in_window (now start endT : Nat) : Bool :=
  if start ≤ endT then decide (start ≤ now) && decide (now ≤ endT)
  else decide (start ≤ now) || decide (now ≤ endT)

/-- Exception test from `update_hosts_file`: a rule is currently suspended
exactly when it carries an expiry strictly in the future. -/
def is_suspended (exception_until : Option Int) (now : Int) : Bool :=
  match exception_until with
  | some expiry => decide (expiry > now)
  | none => false

/-- A domain-blocking rule; times of day are the already-parsed `HH:MM`
values and the optional exception expiry is an absolute timestamp. -/
structure Rule where
  domain : List Char
  start_time : Nat
  end_time : Nat
  exception_until : Option Int
deriving DecidableEq

/-- A grayscale schedule rule (`BwRule` in the source). -/
structure BwRule where
  start_time : Nat
  end_time : Nat
  enabled : Bool
deriving DecidableEq

/-- The current instant as the code observes it: the absolute timestamp
(`Local::now()`) together with its time of day (`now.time()`). -/
structure Instant where
  abs : Int
  tod : Nat
deriving DecidableEq

/-- Domains collected by the rule loop of `update_hosts_file`: a rule
contributes its domain exactly when the current time of day lies in its window
and the rule is not suspended. -/
def collectDomains (rules : List Rule) (now : Instant) : List (List Char) :=
  rules.filterMap fun r =>
    if in_window now.tod r.start_time r.end_time && !is_suspended r.exception_until now.abs
    then some r.domain else none

/-- Rust `Vec::sort`: a stable sort under the lexicographic order on strings. -/
def sortDomains (l : List (List Char)) : List (List Char) :=
  List.insertionSort (· ≤ ·) l

/-- Rust `Vec::dedup`: remove consecutive repeated elements, keeping the first
of each run. -/
def rustDedup : List (List Char) → List (List Char)
  | [] => []
  | [a] => [a]
  | a :: b :: rest => if a = b then rustDedup (b :: rest) else a :: rustDedup (b :: rest)

/-- Blocked-domain list of `update_hosts_file`: collect, sort, deduplicate. -/
def blockedDomains (rules : List Rule) (now : Instant) : List (List Char) :=
  rustDedup (sortDomains (collectDomains rules now))

/-- Whole pure content transformation of `update_hosts_file`. -/
def update_hosts_content (content : List Char) (rules : List Rule) (now : Instant) :
    List Char × Bool :=
  reconcile content (blockedDomains rules now)

/-- Persisted configuration (`Config` in the source). -/
structure Config where
  rules : List Rule
  bw_rules : List BwRule
  manual_bw_active : Bool
  exception_daily_limit : Nat
  exceptions_used_count : Nat
  last_exception_date : List Char
deriving DecidableEq

/-- Sentinel date `default_date()` from the source. -/
def default_date : List Char := "1970-01-01".toList

/-- Value built by the source's `impl Default for Config`. -/
def Config.default : Config :=
  { rules := []
    bw_rules := []
    manual_bw_active := false
    exception_daily_limit := 2
    exceptions_used_count := 0
    last_exception_date := default_date }

/-- A configuration JSON object, by which optional fields are present or
absent; payloads are carried already parsed. -/
structure ConfigJson where
  rules : Option (List Rule)
  bw_rules : Option (List BwRule)
  manual_bw_active : Option Bool
  exception_daily_limit : Option Nat
  exceptions_used_count : Option Nat
  last_exception_date : Option (List Char)

/-- Serde deserialization of `Config` as the derive and field attributes in the
source dictate: `rules` carries no `serde(default)` attribute and is required,
so its absence is a parse error; the four fields marked plain `#[serde(default)]`
fall back to their field type's `Default` value (`Vec` to the empty list,
`bool` to `false`, `u32` to `0`); `last_exception_date` is marked
`#[serde(default = "default_date")]` and falls back to the sentinel date. -/
def deserializeConfig (j : ConfigJson) : Option Config :=
  match j.rules with
  | none => none
  | some rs =>
    some { rules := rs
           bw_rules := j.bw_rules.getD []
           manual_bw_active := j.manual_bw_active.getD false
           exception_daily_limit := j.exception_daily_limit.getD 0
           exceptions_used_count := j.exceptions_used_count.getD 0
           last_exception_date := j.last_exception_date.getD default_date }

/-- Domain normalization `normalize_domain`: a name without a dot gets `.com`
appended, anything else is kept verbatim. -/
def normalize_domain (input : List Char) : List Char :=
  if '.' ∈ input then input else input ++ ".com".toList

/-- Lazy daily quota reset at the head of `Exception Allow`: when the stored
date differs from today, zero the usage counter and stamp today's date. -/
def dailyReset (config : Config) (today : List Char) : Config :=
  if config.last_exception_date ≠ today then
    { config with exceptions_used_count := 0, last_exception_date := today }
  else config

/-- User-facing outcome of an `Exception Allow` invocation. -/
inductive AllowOutcome
  | quotaExceeded
  | noSuchRule
  | granted (remaining : Nat)
deriving DecidableEq

/-- Handler of `focus exception allow <domain> <minutes>`.  Returns the final
in-memory configuration, whether `save_config` was invoked (the quota-exceeded
and no-matching-rule paths return without saving, so nothing is persisted
there), and the user-facing outcome.  `today` is the formatted current date and
`now` the absolute timestamp; the granted expiry is `now` plus the requested
minutes. -/
def exception_allow (config : Config) (domain : List Char) (minutes : Int)
    (today : List Char) (now : Int) : Config × Bool × AllowOutcome :=
  let clean := normalize_domain domain
  let c1 := dailyReset config today
  if c1.exception_daily_limit ≤ c1.exceptions_used_count then
    (c1, false, AllowOutcome.quotaExceeded)
  else
    let expiry := now + minutes * 60
    if c1.rules.any (fun r => decide (r.domain = clean)) then
      let c2 :=
        { c1 with
            rules := c1.rules.map fun r =>
              if r.domain = clean then { r with exception_until := some expiry } else r
            exceptions_used_count := c1.exceptions_used_count + 1 }
      (c2, true, AllowOutcome.granted (c2.exception_daily_limit - c2.exceptions_used_count))
    else
      (c1, false, AllowOutcome.noSuchRule)

/-- Grayscale target computed by `update_screen_color`: the manual toggle
dominates, otherwise any schedule rule whose window contains the current time
of day forces grayscale.  Times are the already-validated parsed values (the
code re-parses the stored strings and skips a rule only when parsing fails). -/
def compute_display_target (config : Config) (tod : Nat) : Bool :=
  if config.manual_bw_active then true
  else config.bw_rules.any fun r => in_window tod r.start_time r.end_time

/-- Replace the `enabled` field of the i-th schedule rule, leaving every other
field and rule untouched. -/
def setEnabledAt : List BwRule → Nat → Bool → List BwRule
  | [], _, _ => []
  | r :: rs, 0, b => { r with enabled := b } :: rs
  | r :: rs, i + 1, b => r :: setEnabledAt rs i b

/-- One step of the managed-region state used to characterize the line scan
independently of it: a start-marker line turns the state on, an end-marker line
turns it off, and any other line leaves it unchanged. -/
def regionStep (inBlock : Bool) (l : List Char) : Bool :=
  if trim l = markerStart then true
  else if trim l = markerEnd then false
  else inBlock

/-- Lines lying outside a marker pair, starting from region state `b`: pair
every line with the region state in force when it is scanned, and keep exactly
the non-marker lines scanned with the state off. -/
def outsideFrom (b : Bool) (ls : List (List Char)) : List (List Char) :=
  ((ls.zip (List.scanl regionStep b ls)).filter fun p => !isMarkerLine p.1 && !p.2).map
    Prod.fst

/-- Lines of a hosts file lying outside a marker pair. -/
def outsideLines (ls : List (List Char)) : List (List Char) := outsideFrom false ls

/-- Concrete fixture: a single always-matching blocking rule. -/
def fixtureRules : List Rule := [⟨"b.com".toList, 0, 100, none⟩]

/-- Concrete fixture: an instant inside the fixture rule's window. -/
def fixtureNow : Instant := ⟨0, 50⟩

/-- Concrete fixture: a hosts file with foreign lines around a stale block. -/
def fixtureHosts : List Char :=
  ("127.0.0.1 localhost\n# BEGIN FOCUS BLOCK\n127.0.0.1 stale.com\n" ++
    "# END FOCUS BLOCK\n::1 ip6-localhost").toList

/-- Concrete fixture: a current date. -/
def fixtureDate : List Char := "2026-10-12".toList

/-- Concrete fixture: a configuration whose daily exception quota is used up. -/
def fixtureCfgFull : Config := ⟨[], [], false, 2, 2, fixtureDate⟩

/-- Concrete fixture: a configuration with two rules for the same domain and a
fresh quota. -/
def fixtureCfgRules : Config :=
  ⟨[⟨"youtube.com".toList, 540, 1020, none⟩, ⟨"youtube.com".toList, 1200, 1320, none⟩],
    [], false, 2, 0, fixtureDate⟩

/-- Concrete fixture: a configuration with one grayscale schedule rule and the
manual toggle off. -/
def fixtureCfgBw : Config := ⟨[], [⟨540, 1020, true⟩], false, 2, 0, fixtureDate⟩

lemma dropWhile_append_singleton {p : Char → Bool} {c : Char} (h : p c = false)
    (xs : List Char) : List.dropWhile p (xs ++ [c]) = List.dropWhile p xs ++ [c] := by
  induction xs with
  | nil => simp [List.dropWhile, h]
  | cons a as ih =>
    by_cases ha : p a = true
    · simp [List.dropWhile, ha, ih]
    · simp at ha
      simp [List.dropWhile, ha]

lemma trimR_cons {c : Char} (h : isWS c = false) (t : List Char) :
    trimR (c :: t) = c :: trimR t := by
  unfold trimR
  rw [List.reverse_cons, dropWhile_append_singleton h, List.reverse_append]
  simp

lemma trim_cons {c : Char} (h : isWS c = false) (t : List Char) :
    trim (c :: t) = c :: trimR t := by
  unfold trim trimL
  rw [trimR_cons h, List.dropWhile_cons_of_neg (by simp [h])]

lemma trim_append_ws {c : Char} (h : isWS c = true) (x : List Char) :
    trim (x ++ [c]) = trim x := by
  unfold trim trimR
  rw [List.reverse_append, List.reverse_singleton, List.singleton_append,
    List.dropWhile_cons_of_pos h]

lemma isMarkerLine_false_iff (l : List Char) :
    isMarkerLine l = false ↔ trim l ≠ markerStart ∧ trim l ≠ markerEnd := by
  simp [isMarkerLine]

lemma not_marker_of_head {c : Char} (hws : isWS c = false) (hne : c ≠ '#')
    (t : List Char) : isMarkerLine (c :: t) = false := by
  rw [isMarkerLine_false_iff]
  constructor
  · intro heq
    apply hne
    have h3 : (c :: trimR t).head? = markerStart.head? := by rw [← trim_cons hws t, heq]
    have h4 : markerStart.head? = some '#' := by decide
    rw [h4] at h3
    exact Option.some.inj h3
  · intro heq
    apply hne
    have h3 : (c :: trimR t).head? = markerEnd.head? := by rw [← trim_cons hws t, heq]
    have h4 : markerEnd.head? = some '#' := by decide
    rw [h4] at h3
    exact Option.some.inj h3

lemma splitLF_nil : splitLF [] = [[]] := rfl

lemma splitLF_cons_lf (cs : List Char) : splitLF ('\n' :: cs) = [] :: splitLF cs := by
  simp only [splitLF, if_true, eq_self_iff_true]

lemma splitLF_cons_ne {c : Char} (h : ¬(c = '\n')) (cs : List Char) :
    splitLF (c :: cs) = (c :: (splitLF cs).headI) :: (splitLF cs).tail := by
  simp only [splitLF]
  rw [if_neg h]

lemma splitLF_ne_nil (s : List Char) : splitLF s ≠ [] := by
  cases s with
  | nil => simp [splitLF_nil]
  | cons c cs =>
    by_cases h : c = '\n'
    · subst h
      rw [splitLF_cons_lf]
      simp
    · rw [splitLF_cons_ne h]
      simp

lemma mem_splitLF_no_lf (s : List Char) : ∀ p ∈ splitLF s, '\n' ∉ p := by
  induction s with
  | nil =>
    intro p hp
    simp [splitLF_nil] at hp
    simp [hp]
  | cons c cs ih =>
    intro p hp
    rcases hr : splitLF cs with _ | ⟨q, qs⟩
    · exact absurd hr (splitLF_ne_nil cs)
    · by_cases h : c = '\n'
      · subst h
        rw [splitLF_cons_lf] at hp
        rcases List.mem_cons.1 hp with rfl | hmem
        · simp
        · exact ih p hmem
      · rw [splitLF_cons_ne h, hr] at hp
        simp only [List.headI, List.tail_cons] at hp
        rcases List.mem_cons.1 hp with rfl | hmem
        · intro hcmem
          rcases List.mem_cons.1 hcmem with h1 | h1
          · exact h h1.symm
          · exact ih q (by rw [hr]; simp) h1
        · exact ih p (by rw [hr]; exact List.mem_cons_of_mem q hmem)

lemma mem_splitLF_chars (s : List Char) : ∀ p ∈ splitLF s, ∀ ch ∈ p, ch ∈ s := by
  induction s with
  | nil =>
    intro p hp
    simp [splitLF_nil] at hp
    simp [hp]
  | cons c cs ih =>
    intro p hp ch hch
    rcases hr : splitLF cs with _ | ⟨q, qs⟩
    · exact absurd hr (splitLF_ne_nil cs)
    · by_cases h : c = '\n'
      · subst h
        rw [splitLF_cons_lf] at hp
        rcases List.mem_cons.1 hp with rfl | hmem
        · simp at hch
        · exact List.mem_cons_of_mem _ (ih p hmem ch hch)
      · rw [splitLF_cons_ne h, hr] at hp
        simp only [List.headI, List.tail_cons] at hp
        rcases List.mem_cons.1 hp with rfl | hmem
        · rcases List.mem_cons.1 hch with rfl | h1
          · simp
          · exact List.mem_cons_of_mem c (ih q (by rw [hr]; simp) ch h1)
        · exact List.mem_cons_of_mem c
            (ih p (by rw [hr]; exact List.mem_cons_of_mem q hmem) ch hch)

lemma splitLF_of_no_lf {p : List Char} (h : '\n' ∉ p) : splitLF p = [p] := by
  induction p with
  | nil => rfl
  | cons c cs ih =>
    have hc : ¬(c = '\n') := fun hcc => h (by simp [hcc])
    rw [splitLF_cons_ne hc, ih (fun hcc => h (List.mem_cons_of_mem c hcc))]
    simp [List.headI]

lemma splitLF_append_lf {p : List Char} (h : '\n' ∉ p) (t : List Char) :
    splitLF (p ++ '\n' :: t) = p :: splitLF t := by
  induction p with
  | nil =>
    rw [List.nil_append, splitLF_cons_lf]
  | cons c cs ih =>
    have hc : ¬(c = '\n') := fun hcc => h (by simp [hcc])
    rw [List.cons_append, splitLF_cons_ne hc,
      ih (fun hcc => h (List.mem_cons_of_mem c hcc))]
    simp [List.headI]

lemma splitLF_joinLF : ∀ parts : List (List Char), parts ≠ [] →
    (∀ p ∈ parts, '\n' ∉ p) → splitLF (joinLF parts) = parts := by
  intro parts
  induction parts with
  | nil => intro h; exact absurd rfl h
  | cons p ps ih =>
    intro _ hn
    cases ps with
    | nil => exact splitLF_of_no_lf (hn p (by simp))
    | cons q qs =>
      show splitLF (p ++ '\n' :: joinLF (q :: qs)) = p :: q :: qs
      rw [splitLF_append_lf (hn p (by simp)),
        ih (by simp) (fun x hx => hn x (List.mem_cons_of_mem p hx))]

lemma stripCR_sublist (p : List Char) : List.Sublist (stripCR p) p := by
  unfold stripCR
  split
  · exact List.dropLast_sublist p
  · exact List.Sublist.refl p

lemma stripCR_of_no_cr {p : List Char} (h : '\r' ∉ p) : stripCR p = p := by
  unfold stripCR
  rw [if_neg]
  intro hlast
  rcases List.mem_getLast?_eq_getLast (Option.mem_def.2 hlast) with ⟨hne, heq⟩
  exact h (heq ▸ List.getLast_mem hne)

lemma map_stripCR_id {xs : List (List Char)} (h : ∀ p ∈ xs, '\r' ∉ p) :
    xs.map stripCR = xs := by
  induction xs with
  | nil => rfl
  | cons p ps ih =>
    rw [List.map_cons, stripCR_of_no_cr (h p (by simp)),
      ih (fun q hq => h q (List.mem_cons_of_mem p hq))]

lemma linesAux_append_last {q : List Char} (hq : q ≠ []) (xs : List (List Char)) :
    linesAux (xs ++ [q]) = xs.map stripCR ++ [q] := by
  induction xs with
  | nil => simp [linesAux, hq]
  | cons p ps ih =>
    rcases hps : ps ++ [q] with _ | ⟨y, ys⟩
    · exact absurd hps (by simp)
    · calc linesAux ((p :: ps) ++ [q]) = stripCR p :: linesAux (ps ++ [q]) := by
            rw [List.cons_append, hps]
            rfl
        _ = stripCR p :: (ps.map stripCR ++ [q]) := by rw [ih]
        _ = (p :: ps).map stripCR ++ [q] := by simp

lemma linesAux_append_nil (xs : List (List Char)) :
    linesAux (xs ++ [([] : List Char)]) = xs.map stripCR := by
  induction xs with
  | nil => rfl
  | cons p ps ih =>
    rcases hps : ps ++ [([] : List Char)] with _ | ⟨y, ys⟩
    · exact absurd hps (by simp)
    · calc linesAux ((p :: ps) ++ [([] : List Char)])
          = stripCR p :: linesAux (ps ++ [([] : List Char)]) := by
            rw [List.cons_append, hps]
            rfl
        _ = stripCR p :: ps.map stripCR := by rw [ih]
        _ = (p :: ps).map stripCR := by simp

lemma mem_linesAux_sublist {l : List Char} :
    ∀ parts : List (List Char), l ∈ linesAux parts → ∃ p ∈ parts, List.Sublist l p := by
  intro parts
  induction parts with
  | nil => intro h; simp [linesAux] at h
  | cons p ps ih =>
    intro hl
    cases ps with
    | nil =>
      unfold linesAux at hl
      by_cases hp : p = ([] : List Char)
      · rw [if_pos hp] at hl
        simp at hl
      · rw [if_neg hp] at hl
        rcases List.mem_singleton.1 hl with rfl
        exact ⟨l, by simp, List.Sublist.refl l⟩
    | cons q qs =>
      rcases List.mem_cons.1 hl with rfl | hmem
      · exact ⟨p, by simp, stripCR_sublist p⟩
      · rcases ih hmem with ⟨r, hr, hsub⟩
        exact ⟨r, List.mem_cons_of_mem p hr, hsub⟩

lemma rustLines_no_lf (s : List Char) : ∀ l ∈ rustLines s, '\n' ∉ l := by
  intro l hl hc
  rcases mem_linesAux_sublist (splitLF s) hl with ⟨p, hp, hsub⟩
  exact mem_splitLF_no_lf s p hp (hsub.subset hc)

lemma rustLines_no_cr {s : List Char} (h : '\r' ∉ s) : ∀ l ∈ rustLines s, '\r' ∉ l := by
  intro l hl hc
  rcases mem_linesAux_sublist (splitLF s) hl with ⟨p, hp, hsub⟩
  exact h (mem_splitLF_chars s p hp '\r' (hsub.subset hc))

lemma joinLF_append_nil : ∀ xs : List (List Char), xs ≠ [] →
    joinLF (xs ++ [([] : List Char)]) = joinLF xs ++ ['\n'] := by
  intro xs
  induction xs with
  | nil => intro h; exact absurd rfl h
  | cons p ps ih =>
    intro _
    cases ps with
    | nil => rfl
    | cons q qs =>
      show p ++ '\n' :: joinLF ((q :: qs) ++ [([] : List Char)]) =
        (p ++ '\n' :: joinLF (q :: qs)) ++ ['\n']
      rw [ih (by simp)]
      simp

lemma stripManaged_cons (l : List Char) (ls : List (List Char)) (b : Bool) :
    stripManaged (l :: ls) b =
      if trim l = markerStart then stripManaged ls true
      else if trim l = markerEnd then stripManaged ls false
      else if b then stripManaged ls true else l :: stripManaged ls false := by
  simp only [stripManaged]

lemma stripManaged_sublist : ∀ (ls : List (List Char)) (b : Bool),
    List.Sublist (stripManaged ls b) ls := by
  intro ls
  induction ls with
  | nil => intro b; exact List.Sublist.refl []
  | cons l ls ih =>
    intro b
    rw [stripManaged_cons]
    by_cases h1 : trim l = markerStart
    · rw [if_pos h1]
      exact (ih true).cons l
    · rw [if_neg h1]
      by_cases h2 : trim l = markerEnd
      · rw [if_pos h2]
        exact (ih false).cons l
      · rw [if_neg h2]
        cases b with
        | true =>
          simp only [if_true]
          exact (ih true).cons l
        | false =>
          simp only [Bool.false_eq_true, if_false]
          exact (ih false).cons₂ l

lemma stripManaged_not_marker : ∀ (ls : List (List Char)) (b : Bool),
    ∀ l ∈ stripManaged ls b, isMarkerLine l = false := by
  intro ls
  induction ls with
  | nil => intro b l hl; simp [stripManaged] at hl
  | cons x ls ih =>
    intro b l hl
    rw [stripManaged_cons] at hl
    by_cases h1 : trim x = markerStart
    · rw [if_pos h1] at hl
      exact ih true l hl
    · rw [if_neg h1] at hl
      by_cases h2 : trim x = markerEnd
      · rw [if_pos h2] at hl
        exact ih false l hl
      · rw [if_neg h2] at hl
        cases b with
        | true =>
          simp only [if_true] at hl
          exact ih true l hl
        | false =>
          simp only [Bool.false_eq_true, if_false] at hl
          rcases List.mem_cons.1 hl with rfl | hmem
          · exact (isMarkerLine_false_iff l).2 ⟨h1, h2⟩
          · exact ih false l hmem

lemma stripManaged_append_keep {xs : List (List Char)}
    (hx : ∀ l ∈ xs, isMarkerLine l = false) (ys : List (List Char)) :
    stripManaged (xs ++ ys) false = xs ++ stripManaged ys false := by
  induction xs with
  | nil => rfl
  | cons l ls ih =>
    have hm := (isMarkerLine_false_iff l).1 (hx l (by simp))
    rw [List.cons_append, stripManaged_cons, if_neg hm.1, if_neg hm.2]
    simp only [Bool.false_eq_true, if_false]
    rw [ih (fun q hq => hx q (List.mem_cons_of_mem l hq)), List.cons_append]

lemma stripManaged_append_drop {xs : List (List Char)}
    (hx : ∀ l ∈ xs, isMarkerLine l = false) (ys : List (List Char)) :
    stripManaged (xs ++ ys) true = stripManaged ys true := by
  induction xs with
  | nil => rfl
  | cons l ls ih =>
    have hm := (isMarkerLine_false_iff l).1 (hx l (by simp))
    rw [List.cons_append, stripManaged_cons, if_neg hm.1, if_neg hm.2]
    simp only [if_true]
    exact ih (fun q hq => hx q (List.mem_cons_of_mem l hq))

lemma stripManaged_keep_all {xs : List (List Char)}
    (hx : ∀ l ∈ xs, isMarkerLine l = false) : stripManaged xs false = xs := by
  have h := stripManaged_append_keep hx []
  rw [show stripManaged [] false = [] from rfl, List.append_nil] at h
  exact h

lemma trim_markerStart : trim markerStart = markerStart := by decide

lemma trim_markerEnd : trim markerEnd = markerEnd := by decide

lemma markerEnd_ne_markerStart : trim markerEnd ≠ markerStart := by decide

lemma stripManaged_fresh_block {bs : List (List Char)}
    (hb : ∀ l ∈ bs, isMarkerLine l = false) :
    stripManaged (markerStart :: (bs ++ [markerEnd])) false = [] := by
  rw [stripManaged_cons, if_pos trim_markerStart, stripManaged_append_drop hb,
    stripManaged_cons, if_neg markerEnd_ne_markerStart, if_pos trim_markerEnd]
  rfl

lemma outsideFrom_cons (b : Bool) (l : List Char) (ls : List (List Char)) :
    outsideFrom b (l :: ls) =
      if (!isMarkerLine l && !b) = true then l :: outsideFrom (regionStep b l) ls
      else outsideFrom (regionStep b l) ls := by
  unfold outsideFrom
  rw [List.scanl_cons]
  simp only [List.singleton_append]
  rw [List.zip_cons_cons, List.filter_cons]
  by_cases h : (!isMarkerLine l && !b) = true
  · rw [if_pos h, if_pos h, List.map_cons]
  · rw [if_neg h, if_neg h]

lemma stripManaged_eq_outsideFrom : ∀ (ls : List (List Char)) (b : Bool),
    stripManaged ls b = outsideFrom b ls := by
  intro ls
  induction ls with
  | nil => intro b; rfl
  | cons l ls ih =>
    intro b
    rw [stripManaged_cons, outsideFrom_cons]
    by_cases h1 : trim l = markerStart
    · have hm : isMarkerLine l = true := by simp [isMarkerLine, h1]
      have hr : regionStep b l = true := by unfold regionStep; rw [if_pos h1]
      rw [if_pos h1, hr, hm]
      simp only [Bool.not_true, Bool.false_and, Bool.false_eq_true, if_false]
      exact ih true
    · rw [if_neg h1]
      by_cases h2 : trim l = markerEnd
      · have hm : isMarkerLine l = true := by simp [isMarkerLine, h2]
        have hr : regionStep b l = false := by unfold regionStep; rw [if_neg h1, if_pos h2]
        rw [if_pos h2, hr, hm]
        simp only [Bool.not_true, Bool.false_and, Bool.false_eq_true, if_false]
        exact ih false
      · have hm : isMarkerLine l = false := (isMarkerLine_false_iff l).2 ⟨h1, h2⟩
        have hr : regionStep b l = b := by unfold regionStep; rw [if_neg h1, if_neg h2]
        rw [if_neg h2, hr, hm]
        cases b with
        | true =>
          simp only [if_true, Bool.not_true, Bool.not_false, Bool.and_false,
            Bool.false_eq_true, if_false]
          exact ih true
        | false =>
          simp only [Bool.false_eq_true, if_false, Bool.not_false, Bool.and_self, if_true]
          rw [ih false]

lemma mem_blockLines {l : List Char} :
    ∀ ds : List (List Char), l ∈ blockLines ds →
      ∃ d ∈ ds, l = ipLocal ++ d ∨ l = ipLocalWww ++ d := by
  intro ds
  induction ds with
  | nil => intro h; simp [blockLines] at h
  | cons d ds ih =>
    intro hl
    simp only [blockLines] at hl
    rcases List.mem_cons.1 hl with rfl | hl2
    · exact ⟨d, by simp, Or.inl rfl⟩
    · rcases List.mem_cons.1 hl2 with rfl | hl3
      · exact ⟨d, by simp, Or.inr rfl⟩
      · rcases ih hl3 with ⟨e, he, hor⟩
        exact ⟨e, List.mem_cons_of_mem d he, hor⟩

lemma stripCR_cons2 (c1 c2 : Char) (t : List Char) :
    ∃ t2, stripCR (c1 :: c2 :: t) = c1 :: t2 := by
  unfold stripCR
  split
  · exact ⟨(c2 :: t).dropLast, rfl⟩
  · exact ⟨c2 :: t, rfl⟩

lemma ipLocal_shape (d : List Char) :
    ipLocal ++ d = '1' :: '2' :: ("7.0.0.1 ".toList ++ d) := rfl

lemma ipLocalWww_shape (d : List Char) :
    ipLocalWww ++ d = '1' :: '2' :: ("7.0.0.1 www.".toList ++ d) := rfl

lemma blockLines_not_marker (ds : List (List Char)) :
    ∀ l ∈ blockLines ds, isMarkerLine l = false := by
  intro l hl
  rcases mem_blockLines ds hl with ⟨d, _, hor⟩
  rcases hor with rfl | rfl
  · rw [ipLocal_shape]
    exact not_marker_of_head (by decide) (by decide) _
  · rw [ipLocalWww_shape]
    exact not_marker_of_head (by decide) (by decide) _

lemma blockLines_stripCR_not_marker (ds : List (List Char)) :
    ∀ l ∈ (blockLines ds).map stripCR, isMarkerLine l = false := by
  intro l hl
  rcases List.mem_map.1 hl with ⟨bl, hbl, rfl⟩
  rcases mem_blockLines ds hbl with ⟨d, _, hor⟩
  rcases hor with rfl | rfl
  · rw [ipLocal_shape]
    rcases stripCR_cons2 '1' '2' ("7.0.0.1 ".toList ++ d) with ⟨t2, ht⟩
    rw [ht]
    exact not_marker_of_head (by decide) (by decide) _
  · rw [ipLocalWww_shape]
    rcases stripCR_cons2 '1' '2' ("7.0.0.1 www.".toList ++ d) with ⟨t2, ht⟩
    rw [ht]
    exact not_marker_of_head (by decide) (by decide) _

lemma blockLines_no_lf {ds : List (List Char)} (hd : ∀ d ∈ ds, '\n' ∉ d) :
    ∀ l ∈ blockLines ds, '\n' ∉ l := by
  intro l hl
  rcases mem_blockLines ds hl with ⟨d, hdm, hor⟩
  have hd2 := hd d hdm
  rcases hor with rfl | rfl
  · intro hmem
    rcases List.mem_append.1 hmem with h | h
    · exact absurd h (by decide)
    · exact hd2 h
  · intro hmem
    rcases List.mem_append.1 hmem with h | h
    · exact absurd h (by decide)
    · exact hd2 h

lemma mem_rustDedup (a : List Char) : ∀ l, a ∈ rustDedup l ↔ a ∈ l := by
  intro l
  induction l with
  | nil => simp [rustDedup]
  | cons x l ih =>
    cases l with
    | nil => simp [rustDedup]
    | cons y rest =>
      unfold rustDedup
      by_cases hxy : x = y
      · rw [if_pos hxy, ih]
        subst hxy
        simp [List.mem_cons]
      · rw [if_neg hxy]
        simp only [List.mem_cons]
        rw [ih]
        simp [List.mem_cons]

lemma rustDedup_sorted_lt : ∀ l : List (List Char),
    List.Sorted (· ≤ ·) l → List.Sorted (· < ·) (rustDedup l) := by
  intro l
  induction l with
  | nil => intro _; simp [rustDedup]
  | cons x l ih =>
    cases l with
    | nil => intro _; simp [rustDedup]
    | cons y rest =>
      intro hs
      have hs' : List.Sorted (· ≤ ·) (y :: rest) := hs.of_cons
      unfold rustDedup
      by_cases hxy : x = y
      · rw [if_pos hxy]
        exact ih hs'
      · rw [if_neg hxy]
        rw [List.sorted_cons]
        refine ⟨?_, ih hs'⟩
        intro b hb
        have hb' : b ∈ y :: rest := (mem_rustDedup b (y :: rest)).1 hb
        have hxb : x ≤ b := (List.sorted_cons.1 hs).1 b hb'
        rcases List.mem_cons.1 hb' with rfl | hbrest
        · exact lt_of_le_of_ne hxb hxy
        · have hxy_le : x ≤ y := (List.sorted_cons.1 hs).1 y (by simp)
          have hyb : y ≤ b := (List.sorted_cons.1 hs').1 b hbrest
          apply lt_of_le_of_ne hxb
          intro hxb_eq
          exact hxy (le_antisymm hxy_le (hxb_eq ▸ hyb))

lemma mem_collectDomains (rules : List Rule) (now : Instant) (d : List Char) :
    d ∈ collectDomains rules now ↔
      ∃ r ∈ rules, r.domain = d ∧ in_window now.tod r.start_time r.end_time = true ∧
        is_suspended r.exception_until now.abs = false := by
  unfold collectDomains
  rw [List.mem_filterMap]
  constructor
  · rintro ⟨r, hr, hf⟩
    by_cases hc : (in_window now.tod r.start_time r.end_time &&
        !is_suspended r.exception_until now.abs) = true
    · rw [if_pos hc] at hf
      rw [Bool.and_eq_true] at hc
      rcases hc with ⟨hw, hsusp⟩
      rw [Bool.not_eq_true'] at hsusp
      exact ⟨r, hr, Option.some.inj hf, hw, hsusp⟩
    · rw [if_neg hc] at hf
      exact absurd hf (by simp)
  · rintro ⟨r, hr, hdom, hw, hsusp⟩
    refine ⟨r, hr, ?_⟩
    have hc : (in_window now.tod r.start_time r.end_time &&
        !is_suspended r.exception_until now.abs) = true := by
      rw [Bool.and_eq_true, Bool.not_eq_true']
      exact ⟨hw, hsusp⟩
    rw [if_pos hc, hdom]

lemma mem_blockedDomains (rules : List Rule) (now : Instant) (d : List Char) :
    d ∈ blockedDomains rules now ↔
      ∃ r ∈ rules, r.domain = d ∧ in_window now.tod r.start_time r.end_time = true ∧
        is_suspended r.exception_until now.abs = false := by
  unfold blockedDomains sortDomains
  rw [mem_rustDedup, (List.perm_insertionSort (· ≤ ·) (collectDomains rules now)).mem_iff]
  exact mem_collectDomains rules now d

lemma blockedDomains_sorted (rules : List Rule) (now : Instant) :
    List.Sorted (· < ·) (blockedDomains rules now) := by
  unfold blockedDomains sortDomains
  exact rustDedup_sorted_lt _ (List.sorted_insertionSort (· ≤ ·) (collectDomains rules now))

lemma dailyReset_rules (config : Config) (today : List Char) :
    (dailyReset config today).rules = config.rules := by
  unfold dailyReset
  split <;> rfl

lemma dailyReset_limit (config : Config) (today : List Char) :
    (dailyReset config today).exception_daily_limit = config.exception_daily_limit := by
  unfold dailyReset
  split <;> rfl

lemma any_inWindow_setEnabledAt (tod : Nat) : ∀ (rs : List BwRule) (i : Nat) (b : Bool),
    (setEnabledAt rs i b).any (fun r => in_window tod r.start_time r.end_time) =
      rs.any (fun r => in_window tod r.start_time r.end_time) := by
  intro rs
  induction rs with
  | nil => intro i b; rfl
  | cons r rs ih =>
    intro i b
    cases i with
    | zero => simp [setEnabledAt, List.any_cons]
    | succ j => simp [setEnabledAt, List.any_cons, ih]

lemma reconcile_fst (x : List Char) (ds : List (List Char)) :
    (reconcile x ds).1 = joinLF (reconcileLines x ds) := rfl

lemma reconcile_snd (x : List Char) (ds : List (List Char)) :
    (reconcile x ds).2 = decide (trim (joinLF (reconcileLines x ds)) ≠ trim x) := rfl

lemma rustLines_joinLF {parts : List (List Char)} (h : parts ≠ [])
    (hn : ∀ p ∈ parts, '\n' ∉ p) : rustLines (joinLF parts) = linesAux parts := by
  unfold rustLines
  rw [splitLF_joinLF parts h hn]

lemma strip_relines_empty {F : List (List Char)}
    (hnm : ∀ l ∈ F, isMarkerLine l = false) (hlf : ∀ l ∈ F, '\n' ∉ l)
    (hcr : ∀ l ∈ F, '\r' ∉ l) :
    trim (joinLF (stripManaged (rustLines (joinLF F)) false)) = trim (joinLF F) := by
  rcases List.eq_nil_or_concat F with rfl | ⟨xs, q, rfl⟩
  · rfl
  · rw [List.concat_eq_append] at *
    have hxs_nm : ∀ l ∈ xs, isMarkerLine l = false :=
      fun l hl => hnm l (List.mem_append_left _ hl)
    have hxs_cr : ∀ l ∈ xs, '\r' ∉ l :=
      fun l hl => hcr l (List.mem_append_left _ hl)
    have hre : rustLines (joinLF (xs ++ [q])) = linesAux (xs ++ [q]) :=
      rustLines_joinLF (by simp) hlf
    by_cases hq : q = ([] : List Char)
    · subst hq
      rw [hre, linesAux_append_nil, map_stripCR_id hxs_cr, stripManaged_keep_all hxs_nm]
      rcases List.eq_nil_or_concat xs with rfl | ⟨ys, r, rfl⟩
      · rfl
      · rw [joinLF_append_nil _ (by simp), trim_append_ws (by decide)]
    · rw [hre, linesAux_append_last hq, map_stripCR_id hxs_cr,
        stripManaged_keep_all hnm]

lemma strip_relines_block {F ds : List (List Char)}
    (hnm : ∀ l ∈ F, isMarkerLine l = false) (hlf : ∀ l ∈ F, '\n' ∉ l)
    (hcr : ∀ l ∈ F, '\r' ∉ l) (hd : ∀ d ∈ ds, '\n' ∉ d) :
    stripManaged (rustLines (joinLF (F ++ managedBlock ds))) false = F := by
  have hparts_lf : ∀ p ∈ F ++ managedBlock ds, '\n' ∉ p := by
    intro p hp
    rcases List.mem_append.1 hp with h | h
    · exact hlf p h
    · unfold managedBlock at h
      rcases List.mem_cons.1 h with rfl | h2
      · decide
      · rcases List.mem_append.1 h2 with h3 | h3
        · exact blockLines_no_lf hd p h3
        · rw [List.mem_singleton.1 h3]
          decide
  have hshape : F ++ managedBlock ds =
      (F ++ markerStart :: blockLines ds) ++ [markerEnd] := by
    unfold managedBlock
    simp
  rw [rustLines_joinLF (by simp [managedBlock]) hparts_lf, hshape,
    linesAux_append_last (by decide), List.map_append, List.map_cons,
    map_stripCR_id hcr, show stripCR markerStart = markerStart from by decide]
  have hshape2 : (F ++ markerStart :: (blockLines ds).map stripCR) ++ [markerEnd] =
      F ++ (markerStart :: ((blockLines ds).map stripCR ++ [markerEnd])) := by
    simp
  rw [hshape2, stripManaged_append_keep hnm,
    stripManaged_fresh_block (blockLines_stripCR_not_marker ds), List.append_nil]

/-- C2: non-destructive merge.  The foreign lines kept by the scan form a
sublist of the input lines (each appears verbatim, in its original relative
order), they are exactly the non-marker lines scanned with the region state
off (so only marker lines and lines between markers are removed, for arbitrary
content with zero, one, or several pre-existing managed blocks), and the
reconciler's output consists of those lines followed only by the freshly
generated managed block, if any. -/
theorem reconcile_preserves_foreign (content : List Char) (ds : List (List Char)) :
    List.Sublist (stripManaged (rustLines content) false) (rustLines content)
  ∧ stripManaged (rustLines content) false = outsideLines (rustLines content)
  ∧ reconcileLines content ds =
      outsideLines (rustLines content) ++ (if ds.isEmpty then [] else managedBlock ds) := by
  refine ⟨stripManaged_sublist _ _, stripManaged_eq_outsideFrom _ _, ?_⟩
  unfold reconcileLines outsideLines
  rw [stripManaged_eq_outsideFrom]

/-- C3: block-set calculation.  A domain is in the computed blocked list iff
some rule carries it, its window contains the current time of day, and it is
not suspended; the list is strictly sorted in the lexicographic order (hence
deduplicated); and suspension holds iff an exception expiry is present and
strictly in the future (absent or expired exceptions do not suspend). -/
theorem blocked_domains_spec (rules : List Rule) (now : Instant) :
    (∀ d, d ∈ blockedDomains rules now ↔
        ∃ r ∈ rules, r.domain = d ∧ in_window now.tod r.start_time r.end_time = true ∧
          is_suspended r.exception_until now.abs = false)
  ∧ List.Sorted (· < ·) (blockedDomains rules now)
  ∧ (∀ (e : Option Int) (t0 : Int), is_suspended e t0 = true ↔ ∃ t, e = some t ∧ t0 < t) := by
  refine ⟨fun d => mem_blockedDomains rules now d, blockedDomains_sorted rules now, ?_⟩
  intro e t0
  cases e with
  | none => simp [is_suspended]
  | some t => simp [is_suspended]

/-- C4: time-window evaluation.  For a validated triple, an ordinary window
(start not after end) contains now iff start and end enclose it inclusively,
and a wrapped window (start after end) contains now iff now is at or after the
start or at or before the end. -/
theorem in_window_spec (now start endT : Nat) :
    (start ≤ endT → (in_window now start endT = true ↔ start ≤ now ∧ now ≤ endT))
  ∧ (endT < start → (in_window now start endT = true ↔ start ≤ now ∨ now ≤ endT)) := by
  constructor
  · intro h
    unfold in_window
    rw [if_pos h]
    simp
  · intro h
    unfold in_window
    rw [if_neg (not_le.2 h)]
    simp

/-- C4 witness: the ordinary window 09:00-17:00 at 12:00 and the wrapped
window 23:00-02:00 at 01:00 (times in minutes). -/
theorem in_window_spec_witness :
    ((9 : Nat) ≤ 17 ∧ (in_window 12 9 17 = true ↔ 9 ≤ 12 ∧ 12 ≤ 17))
  ∧ ((120 : Nat) < 1380 ∧ (in_window 60 1380 120 = true ↔ 1380 ≤ 60 ∨ 60 ≤ 120)) :=
  ⟨⟨by decide, (in_window_spec 12 9 17).1 (by decide)⟩,
    ⟨by decide, (in_window_spec 60 1380 120).2 (by decide)⟩⟩

/-- C5: exception quota.  On a same-day grant attempt with the usage counter
at or over the limit, the handler reports the quota exceeded, saves nothing,
and returns the configuration unchanged (no rule touched, counter unchanged);
when the stored date differs from today the counter is reset to zero and the
date stamped before the check, so with a positive limit the attempt cannot
fail with the quota error. -/
theorem exception_quota_spec (config : Config) (domain : List Char) (minutes : Int)
    (today : List Char) (now : Int) :
    (config.last_exception_date = today →
      config.exception_daily_limit ≤ config.exceptions_used_count →
      exception_allow config domain minutes today now =
        (config, false, AllowOutcome.quotaExceeded))
  ∧ (config.last_exception_date ≠ today →
      (dailyReset config today).exceptions_used_count = 0 ∧
      (dailyReset config today).last_exception_date = today ∧
      (0 < config.exception_daily_limit →
        (exception_allow config domain minutes today now).2.2 ≠
          AllowOutcome.quotaExceeded)) := by
  constructor
  · intro h1 h2
    have hdr : dailyReset config today = config := by
      unfold dailyReset
      rw [if_neg (by simp [h1])]
    simp only [exception_allow]
    rw [hdr, if_pos h2]
  · intro h1
    have hdr : dailyReset config today =
        { config with exceptions_used_count := 0, last_exception_date := today } := by
      unfold dailyReset
      rw [if_pos h1]
    refine ⟨by rw [hdr], by rw [hdr], ?_⟩
    intro hpos
    have hcount : (dailyReset config today).exceptions_used_count = 0 := by rw [hdr]
    have hlim := dailyReset_limit config today
    simp only [exception_allow]
    rw [if_neg (by rw [hcount, hlim]; omega)]
    split <;> simp

/-- C5 witness: a configuration with both daily exceptions used fails the next
same-day grant with the quota error and is returned unchanged; with a later
date the counter resets to zero. -/
theorem exception_quota_spec_witness :
    (fixtureCfgFull.last_exception_date = fixtureDate ∧
      fixtureCfgFull.exception_daily_limit ≤ fixtureCfgFull.exceptions_used_count ∧
      exception_allow fixtureCfgFull "a.com".toList 30 fixtureDate 1000 =
        (fixtureCfgFull, false, AllowOutcome.quotaExceeded))
  ∧ (fixtureCfgFull.last_exception_date ≠ "2026-10-13".toList ∧
      (dailyReset fixtureCfgFull "2026-10-13".toList).exceptions_used_count = 0 ∧
      (exception_allow fixtureCfgFull "a.com".toList 30 "2026-10-13".toList 1000).2.2 ≠
        AllowOutcome.quotaExceeded) :=
  ⟨⟨rfl, by decide,
      (exception_quota_spec fixtureCfgFull "a.com".toList 30 fixtureDate 1000).1 rfl
        (by decide)⟩,
    ⟨by decide,
      ((exception_quota_spec fixtureCfgFull "a.com".toList 30 "2026-10-13".toList 1000).2
          (by decide)).1,
      (((exception_quota_spec fixtureCfgFull "a.com".toList 30 "2026-10-13".toList 1000).2
          (by decide)).2).2 (by decide)⟩⟩

/-- C6: exception grant broadcast.  Under the (post-reset) quota, a grant for a
domain with at least one matching rule stamps the same expiry, now plus the
requested minutes, on every rule whose domain equals the normalized target,
leaves all other rules untouched, increments the usage counter by exactly one
regardless of how many rules matched, and saves; with no matching rule the
handler fails without saving and without consuming quota. -/
theorem exception_grant_spec (config : Config) (domain : List Char) (minutes : Int)
    (today : List Char) (now : Int)
    (h : (dailyReset config today).exceptions_used_count <
      (dailyReset config today).exception_daily_limit) :
    ((∃ r ∈ config.rules, r.domain = normalize_domain domain) →
      exception_allow config domain minutes today now =
        ({ dailyReset config today with
            rules := config.rules.map fun r =>
              if r.domain = normalize_domain domain
              then { r with exception_until := some (now + minutes * 60) } else r
            exceptions_used_count := (dailyReset config today).exceptions_used_count + 1 },
          true,
          AllowOutcome.granted (config.exception_daily_limit -
            ((dailyReset config today).exceptions_used_count + 1))))
  ∧ ((∀ r ∈ config.rules, r.domain ≠ normalize_domain domain) →
      exception_allow config domain minutes today now =
        (dailyReset config today, false, AllowOutcome.noSuchRule)) := by
  have hnot : ¬((dailyReset config today).exception_daily_limit ≤
      (dailyReset config today).exceptions_used_count) := not_le.2 h
  constructor
  · rintro ⟨r0, hr0, hd0⟩
    have hany : ((dailyReset config today).rules.any
        (fun r => decide (r.domain = normalize_domain domain))) = true := by
      rw [dailyReset_rules, List.any_eq_true]
      exact ⟨r0, hr0, by simp [hd0]⟩
    simp only [exception_allow]
    rw [if_neg hnot, if_pos hany, dailyReset_rules, dailyReset_limit]
  · intro hall
    have hany : ((dailyReset config today).rules.any
        (fun r => decide (r.domain = normalize_domain domain))) = false := by
      rw [dailyReset_rules, List.any_eq_false]
      intro r hr
      simp [hall r hr]
    simp only [exception_allow]
    rw [if_neg hnot, if_neg (by rw [hany]; exact Bool.false_ne_true)]

/-- C6 witness: two rules for youtube.com, request for the bare name youtube
(normalized to youtube.com); both rules receive the same expiry and the
counter rises by exactly one. -/
theorem exception_grant_spec_witness :
    ((dailyReset fixtureCfgRules fixtureDate).exceptions_used_count <
      (dailyReset fixtureCfgRules fixtureDate).exception_daily_limit)
  ∧ exception_allow fixtureCfgRules "youtube".toList 30 fixtureDate 1000 =
      (⟨[⟨"youtube.com".toList, 540, 1020, some 2800⟩,
          ⟨"youtube.com".toList, 1200, 1320, some 2800⟩],
        [], false, 2, 1, fixtureDate⟩, true, AllowOutcome.granted 1) :=
  ⟨by decide,
    ((exception_grant_spec fixtureCfgRules "youtube".toList 30 fixtureDate 1000
        (by decide)).1 (by decide)).trans (by decide)⟩

/-- C7: managed-block emission.  When the computed blocked list is non-empty
the reconciler's line output is the marker-free foreign lines followed by
exactly one fresh managed block: the start marker, the two blocking lines per
domain in strictly sorted order, and the end marker.  When the blocked list is
empty the output is the foreign lines alone and contains no marker line at
all. -/
theorem managed_block_emission (content : List Char) (rules : List Rule) (now : Instant) :
    (blockedDomains rules now ≠ [] →
      reconcileLines content (blockedDomains rules now) =
        stripManaged (rustLines content) false ++
          (markerStart :: (blockLines (blockedDomains rules now) ++ [markerEnd]))
      ∧ List.Sorted (· < ·) (blockedDomains rules now)
      ∧ ∀ l ∈ stripManaged (rustLines content) false, isMarkerLine l = false)
  ∧ (blockedDomains rules now = [] →
      reconcileLines content (blockedDomains rules now) =
        stripManaged (rustLines content) false
      ∧ ∀ l ∈ reconcileLines content (blockedDomains rules now),
          isMarkerLine l = false) := by
  constructor
  · intro hne
    refine ⟨?_, blockedDomains_sorted rules now, stripManaged_not_marker _ _⟩
    unfold reconcileLines managedBlock
    rw [if_neg (by simp [hne])]
  · intro hnil
    have hif : (blockedDomains rules now).isEmpty = true := by simp [hnil]
    constructor
    · unfold reconcileLines
      rw [if_pos hif, List.append_nil]
    · intro l hl
      unfold reconcileLines at hl
      rw [if_pos hif, List.append_nil] at hl
      exact stripManaged_not_marker _ _ l hl

/-- C7 witness: one matching rule against a hosts file that already carries a
stale managed block. -/
theorem managed_block_emission_witness :
    reconcileLines fixtureHosts (blockedDomains fixtureRules fixtureNow) =
      stripManaged (rustLines fixtureHosts) false ++
        (markerStart :: (blockLines (blockedDomains fixtureRules fixtureNow) ++ [markerEnd]))
  ∧ List.Sorted (· < ·) (blockedDomains fixtureRules fixtureNow)
  ∧ ∀ l ∈ stripManaged (rustLines fixtureHosts) false, isMarkerLine l = false :=
  (managed_block_emission fixtureHosts fixtureRules fixtureNow).1 (by decide)

/-- C8: display target.  With the manual toggle on the target is true
unconditionally; with it off the target is true iff some schedule rule's
window contains the current time of day. -/
theorem display_target_spec (config : Config) (tod : Nat) :
    (config.manual_bw_active = true → compute_display_target config tod = true)
  ∧ (config.manual_bw_active = false →
      (compute_display_target config tod = true ↔
        ∃ r ∈ config.bw_rules, in_window tod r.start_time r.end_time = true)) := by
  constructor
  · intro h
    unfold compute_display_target
    rw [if_pos h]
  · intro h
    unfold compute_display_target
    rw [if_neg (by simp [h]), List.any_eq_true]

/-- C8 witness: a schedule rule whose window contains the sample time with the
toggle off, and the same configuration with the toggle on. -/
theorem display_target_spec_witness :
    (fixtureCfgBw.manual_bw_active = false ∧
      (compute_display_target fixtureCfgBw 600 = true ↔
        ∃ r ∈ fixtureCfgBw.bw_rules, in_window 600 r.start_time r.end_time = true))
  ∧ ({ fixtureCfgBw with manual_bw_active := true }.manual_bw_active = true ∧
      compute_display_target { fixtureCfgBw with manual_bw_active := true } 0 = true) :=
  ⟨⟨rfl, (display_target_spec fixtureCfgBw 600).2 rfl⟩,
    ⟨rfl, (display_target_spec { fixtureCfgBw with manual_bw_active := true } 0).1 rfl⟩⟩

/-- C10: the enabled flag of a schedule rule is never read.  With the manual
toggle off, overwriting the flag of any rule (in particular flipping it)
leaves the computed display target unchanged. -/
theorem bw_enabled_no_effect (config : Config) (tod : Nat) (i : Nat) (b : Bool)
    (h : config.manual_bw_active = false) :
    compute_display_target
        { config with bw_rules := setEnabledAt config.bw_rules i b } tod =
      compute_display_target config tod := by
  unfold compute_display_target
  rw [if_neg (by simp [h]), if_neg (by simp [h])]
  exact any_inWindow_setEnabledAt tod config.bw_rules i b

/-- C10 witness: disabling the only schedule rule of the fixture changes
nothing; the target stays true inside the rule's window. -/
theorem bw_enabled_no_effect_witness :
    fixtureCfgBw.manual_bw_active = false ∧
    compute_display_target
        { fixtureCfgBw with bw_rules := setEnabledAt fixtureCfgBw.bw_rules 0 false } 600 =
      compute_display_target fixtureCfgBw 600 :=
  ⟨rfl, bw_enabled_no_effect fixtureCfgBw 600 0 false rfl⟩

/-- C9 (code bug): serde defaults.  Deserializing a stored configuration
object that lacks every optional field yields a daily exception limit of 0,
because the field carries a plain serde default attribute falling back to the
integer type's zero, while the source's own Default implementation documents
the intended default of 2. -/
theorem config_serde_limit_bug :
    (deserializeConfig ⟨some [], none, none, none, none, none⟩).map
        Config.exception_daily_limit = some 0
  ∧ Config.default.exception_daily_limit = 2
  ∧ deserializeConfig ⟨some [], none, none, none, none, none⟩ =
      some ⟨[], [], false, 0, 0, default_date⟩ :=
  ⟨rfl, rfl, rfl⟩

/-- C1 counterexample: the reconciler is not idempotent as claimed.  On the
content of two bare line feeds with an empty blocked set, the second run's
output differs from the first run's output (a trailing empty line is dropped);
on content with a carriage-return pair before a line feed the second run even
reports changed=true, as it does for a blocked domain embedding a newline and
a marker line. -/
theorem reconcile_second_pass_cx :
    (reconcile (reconcile "\n\n".toList []).1 []).1 ≠ (reconcile "\n\n".toList []).1
  ∧ (reconcile (reconcile "a\r\r\nb".toList []).1 []).2 = true
  ∧ (reconcile (reconcile [] ["x\n# END FOCUS BLOCK".toList]).1
      ["x\n# END FOCUS BLOCK".toList]).2 = true :=
  ⟨by decide, by decide, by decide⟩

/-- C1 (amended): for content free of carriage returns and blocked domains
free of newlines, running the reconciler a second time on the first run's own
output with the same blocked-domain list reports changed=false (so no second
write is performed) and produces output with the same trimmed content; when
the blocked-domain list is non-empty the second output is moreover
byte-identical to the first. -/
theorem reconcile_second_pass (c : List Char) (ds : List (List Char))
    (hc : '\r' ∉ c) (hd : ∀ d ∈ ds, '\n' ∉ d) :
    (reconcile (reconcile c ds).1 ds).2 = false
  ∧ trim (reconcile (reconcile c ds).1 ds).1 = trim (reconcile c ds).1
  ∧ (ds ≠ [] → (reconcile (reconcile c ds).1 ds).1 = (reconcile c ds).1) := by
  have hFnm := stripManaged_not_marker (rustLines c) false
  have hFsub := (stripManaged_sublist (rustLines c) false).subset
  have hFlf : ∀ l ∈ stripManaged (rustLines c) false, '\n' ∉ l :=
    fun l hl => rustLines_no_lf c l (hFsub hl)
  have hFcr : ∀ l ∈ stripManaged (rustLines c) false, '\r' ∉ l :=
    fun l hl => rustLines_no_cr hc l (hFsub hl)
  by_cases hds : ds = []
  · subst hds
    have hrl : ∀ x : List Char, reconcileLines x ([] : List (List Char)) =
        stripManaged (rustLines x) false := by
      intro x
      unfold reconcileLines
      simp
    have core : trim (joinLF (stripManaged (rustLines ((reconcile c []).1)) false)) =
        trim ((reconcile c []).1) := by
      rw [reconcile_fst, hrl]
      exact strip_relines_empty hFnm hFlf hFcr
    refine ⟨?_, ?_, fun hne => absurd rfl hne⟩
    · rw [reconcile_snd, hrl, core]
      simp
    · rw [reconcile_fst ((reconcile c []).1), hrl]
      exact core
  · have hrl : ∀ x : List Char, reconcileLines x ds =
        stripManaged (rustLines x) false ++ managedBlock ds := by
      intro x
      unfold reconcileLines
      rw [if_neg (by simp [hds])]
    have hstrip : stripManaged (rustLines ((reconcile c ds).1)) false =
        stripManaged (rustLines c) false := by
      rw [reconcile_fst, hrl]
      exact strip_relines_block hFnm hFlf hFcr hd
    have hout : (reconcile (reconcile c ds).1 ds).1 = (reconcile c ds).1 := by
      rw [reconcile_fst ((reconcile c ds).1) ds, hrl, hstrip, ← hrl, ← reconcile_fst]
    refine ⟨?_, by rw [hout], fun _ => hout⟩
    rw [reconcile_snd, hrl, hstrip, ← hrl, ← reconcile_fst]
    simp

/-- C1 witness: a hosts file with a stale managed block and one blocked
domain; the second run returns the first output unchanged and reports
changed=false. -/
theorem reconcile_second_pass_witness :
    ('\r' ∉ fixtureHosts ∧ ∀ d ∈ [("a.com".toList : List Char)], '\n' ∉ d)
  ∧ (reconcile (reconcile fixtureHosts ["a.com".toList]).1 ["a.com".toList]).2 = false
  ∧ trim (reconcile (reconcile fixtureHosts ["a.com".toList]).1 ["a.com".toList]).1 =
      trim (reconcile fixtureHosts ["a.com".toList]).1
  ∧ ([("a.com".toList : List Char)] ≠ [] →
      (reconcile (reconcile fixtureHosts ["a.com".toList]).1 ["a.com".toList]).1 =
        (reconcile fixtureHosts ["a.com".toList]).1) :=
  ⟨⟨by decide, by decide⟩,
    reconcile_second_pass fixtureHosts ["a.com".toList] (by decide) (by decide)⟩

end Focus
